import Mathlib

/-!
Verification development for the gremcos graph-client repository.

Part I embeds the fluent query-builder DSL of `api/vertex.go` (the `vertex`
type, its `String`, `Add`, `Has`, `Property` methods and the helper
`toKeyValueString`) and proves functional-correctness properties about it.

Part II models the connection pool, the request correlator and the
connector state machine described in the specification (the corresponding
Go sources are not part of the provided source tree, only their tests and
callers are), and proves the spec's invariants over those models.
-/

/- ===================================================================
   Part I: the query-builder DSL, from api/vertex.go
   =================================================================== -/

/-- A query builder (`interfaces.QueryBuilder` in the Go source): the only
method the vertex code uses is `String()`, so a builder is embedded as its
rendering.  `render` is the result of the Go builder's `String()` method. -/
structure QueryBuilder where
  render : String
deriving DecidableEq, Repr

/-- The `vertex` type of api/vertex.go: an accumulated list of query
builders. -/
structure Vertex where
  builders : List QueryBuilder
deriving DecidableEq, Repr

/-- `(*vertex).String()` from api/vertex.go: starts from the empty string
and appends each accumulated builder's rendering in order. -/
def Vertex.string (v : Vertex) : String :=
  v.builders.foldl (fun queryString queryBuilder => queryString ++ queryBuilder.render) ""

/-- `NewVertexG` from api/vertex.go: a fresh vertex whose builder list holds
exactly the given graph (as a query builder). -/
def NewVertexG (g : QueryBuilder) : Vertex :=
  ⟨[g]⟩

/-- `(*vertex).Add` from api/vertex.go: appends the given builder to the
vertex's builder list and returns the (updated) vertex. -/
def Vertex.add (v : Vertex) (builder : QueryBuilder) : Vertex :=
  ⟨v.builders ++ [builder]⟩

/-- Every fluent step of api/vertex.go funnels through `Add` with one
builder (e.g. `Limit` adds `.limit(%d)`); a sequence of fluent steps is
therefore embedded as the list of builders those steps add, applied in
order. -/
def Vertex.applySteps (v : Vertex) (steps : List QueryBuilder) : Vertex :=
  steps.foldl Vertex.add v

/-- `(*vertex).Limit` from api/vertex.go: adds `.limit(<num>)`. -/
def Vertex.limit (v : Vertex) (maxElements : Int) : Vertex :=
  v.add ⟨".limit(" ++ toString maxElements ++ ")"⟩

/-- `(*vertex).Count` from api/vertex.go: adds `.count()`. -/
def Vertex.count (v : Vertex) : Vertex :=
  v.add ⟨".count()"⟩

lemma string_foldl_shift (l : List String) :
    ∀ acc : String, l.foldl (fun a s => a ++ s) acc = acc ++ l.foldl (fun a s => a ++ s) "" := by
  induction l with
  | nil => intro acc; simp [String.append_empty]
  | cons x xs ih =>
    intro acc
    simp only [List.foldl_cons]
    rw [ih (acc ++ x), ih ("" ++ x), String.empty_append, String.append_assoc]

lemma string_join_cons (s : String) (l : List String) :
    String.join (s :: l) = s ++ String.join l := by
  show (s :: l).foldl (fun a b => a ++ b) "" = s ++ l.foldl (fun a b => a ++ b) ""
  simp only [List.foldl_cons, String.empty_append]
  exact string_foldl_shift l s

lemma vertex_string_eq_join (v : Vertex) :
    v.string = String.join (v.builders.map QueryBuilder.render) := by
  show v.builders.foldl (fun a q => a ++ q.render) "" =
    (v.builders.map QueryBuilder.render).foldl (fun a b => a ++ b) ""
  rw [List.foldl_map]

lemma applySteps_builders (steps : List QueryBuilder) :
    ∀ v : Vertex, (v.applySteps steps).builders = v.builders ++ steps := by
  induction steps with
  | nil => intro v; simp [Vertex.applySteps]
  | cons s rest ih =>
    intro v
    show ((v.add s).applySteps rest).builders = v.builders ++ (s :: rest)
    rw [ih (v.add s)]
    simp [Vertex.add]

/-- Claim C8: for every vertex, `String()` is the in-order concatenation of
the `String()` renderings of the accumulated query builders; for a vertex
created by `NewVertexG g` followed by any sequence of fluent steps (each
step adding its builder via `Add`), `String()` is `g.String()` followed by
the steps' renderings in application order. -/
theorem vertex_string_is_ordered_concat :
    (∀ v : Vertex, v.string = String.join (v.builders.map QueryBuilder.render)) ∧
    (∀ (g : QueryBuilder) (steps : List QueryBuilder),
      ((NewVertexG g).applySteps steps).string =
        g.render ++ String.join (steps.map QueryBuilder.render)) := by
  constructor
  · exact vertex_string_eq_join
  · intro g steps
    rw [vertex_string_eq_join, applySteps_builders]
    show String.join (([g] ++ steps).map QueryBuilder.render) = _
    rw [List.map_append]
    simp only [List.map_cons, List.map_nil, List.singleton_append]
    exact string_join_cons g.render (steps.map QueryBuilder.render)

/-- Claim C9: `Add` appends the given builder after all previously added
builders, leaving the earlier builders unchanged and in order, and the
rendered query after the call is the rendered query before the call
concatenated with the new builder's rendering. -/
theorem vertex_add_appends_builder :
    ∀ (v : Vertex) (b : QueryBuilder),
      (v.add b).builders = v.builders ++ [b] ∧
      (v.add b).string = v.string ++ b.render := by
  intro v b
  refine ⟨rfl, ?_⟩
  rw [vertex_string_eq_join, vertex_string_eq_join]
  show String.join ((v.builders ++ [b]).map QueryBuilder.render) = _
  rw [List.map_append]
  show String.join (v.builders.map QueryBuilder.render ++ [b.render]) = _
  generalize v.builders.map QueryBuilder.render = l
  induction l with
  | nil =>
    rw [List.nil_append, string_join_cons]
    show b.render ++ "" = "" ++ b.render
    rw [String.append_empty, String.empty_append]
  | cons x xs ih =>
    rw [List.cons_append, string_join_cons, ih, string_join_cons, String.append_assoc]

/-- A Go `interface{}` value as it reaches `toKeyValueString` in
api/vertex.go.  One constructor per type that the source's switch treats
specially, one per integer type listed in the `case int, int16, ...` arm.
`goInt8` is separate because `int8` is absent from that arm.  Floating
point and `time.Time` payloads are abstracted by the string their Go
rendering (`%f`, `Time.String()`) produces.  `other` covers every type
outside the switch; its payload is the outcome of `cast.ToStringE`
(`some s` when the cast succeeds, `none` when it fails). -/
inductive GoValue where
  | str (s : String)
  | goBool (b : Bool)
  | goInt (n : Int)
  | goInt16 (n : Int)
  | goInt32 (n : Int)
  | goInt64 (n : Int)
  | goUint (n : Nat)
  | goUint8 (n : Nat)
  | goUint16 (n : Nat)
  | goUint32 (n : Nat)
  | goUint64 (n : Nat)
  | goFloat64 (rendering : String)
  | goTime (rendering : String)
  | goInt8 (n : Int)
  | other (castResult : Option String)
deriving DecidableEq, Repr

/-- Go's `%t` rendering of a bool. -/
def formatBool (b : Bool) : String :=
  if b then "true" else "false"

/-- `toKeyValueString` from api/vertex.go.  `escape` abstracts the
repository's `Escape` helper, which is defined outside the provided
sources.  A `string` value is escaped and quoted; `bool`, the integer
types of the switch arm, and `float64` are rendered unquoted; `time.Time`
is rendered quoted; everything else (the `default` arm, which includes
`int8`) falls back to `cast.ToStringE` and, on success, is escaped and
quoted; a failed cast is the error case (the callers panic on it).
`cast.ToStringE` always succeeds on `int8`, yielding its decimal string. -/
def toKeyValueString (escape : String → String) (key : String) (value : GoValue) :
    Except String String :=
  match value with
  | .str s => .ok ("(\"" ++ key ++ "\",\"" ++ escape s ++ "\")")
  | .goBool b => .ok ("(\"" ++ key ++ "\"," ++ formatBool b ++ ")")
  | .goInt n => .ok ("(\"" ++ key ++ "\"," ++ toString n ++ ")")
  | .goInt16 n => .ok ("(\"" ++ key ++ "\"," ++ toString n ++ ")")
  | .goInt32 n => .ok ("(\"" ++ key ++ "\"," ++ toString n ++ ")")
  | .goInt64 n => .ok ("(\"" ++ key ++ "\"," ++ toString n ++ ")")
  | .goUint n => .ok ("(\"" ++ key ++ "\"," ++ toString n ++ ")")
  | .goUint8 n => .ok ("(\"" ++ key ++ "\"," ++ toString n ++ ")")
  | .goUint16 n => .ok ("(\"" ++ key ++ "\"," ++ toString n ++ ")")
  | .goUint32 n => .ok ("(\"" ++ key ++ "\"," ++ toString n ++ ")")
  | .goUint64 n => .ok ("(\"" ++ key ++ "\"," ++ toString n ++ ")")
  | .goFloat64 r => .ok ("(\"" ++ key ++ "\"," ++ r ++ ")")
  | .goTime r => .ok ("(\"" ++ key ++ "\",\"" ++ r ++ "\")")
  | .goInt8 n => .ok ("(\"" ++ key ++ "\",\"" ++ escape (toString n) ++ "\")")
  | .other castResult =>
    match castResult with
    | some s => .ok ("(\"" ++ key ++ "\",\"" ++ escape s ++ "\")")
    | none => .error "cast to string failed"

/-- `(*vertex).Has` from api/vertex.go.  With no value it adds
`.has("<key>")`; with a value it renders the key/value pair via
`toKeyValueString` and adds `.has<pair>`; a failed render is the panic
case, embedded as the error of the `Except`. -/
def Vertex.has (escape : String → String) (v : Vertex) (key : String)
    (value : List GoValue) : Except String Vertex :=
  match value with
  | [] => .ok (v.add ⟨".has(\"" ++ key ++ "\")"⟩)
  | val :: _ =>
    match toKeyValueString escape key val with
    | .ok keyVal => .ok (v.add ⟨".has" ++ keyVal⟩)
    | .error e => .error e

/-- `(*vertex).Property` from api/vertex.go: renders the key/value pair via
`toKeyValueString` and adds `.property<pair>`; a failed render is the
panic case, embedded as the error of the `Except`. -/
def Vertex.property (escape : String → String) (v : Vertex) (key : String)
    (value : GoValue) : Except String Vertex :=
  match toKeyValueString escape key value with
  | .ok keyVal => .ok (v.add ⟨".property" ++ keyVal⟩)
  | .error e => .error e

/-- A key/value pair rendering with the quotes around the value omitted,
e.g. `("temperature",23.02)`. -/
def unquotedPair (key payload : String) : String :=
  "(\"" ++ key ++ "\"," ++ payload ++ ")"

/-- A key/value pair rendering with the value quoted, e.g.
`("name","hans")`. -/
def quotedPair (key payload : String) : String :=
  "(\"" ++ key ++ "\",\"" ++ payload ++ "\")"

/-- Claim C10, counterexample: `int8` is a signed integer type, yet
`Has("k", int8(5))` does not render the value with the quotes omitted
(`.has("k",5)`); it renders it quoted (`.has("k","5")`), because `int8`
is missing from the switch arm of `toKeyValueString` and falls through to
the string-cast fallback. -/
theorem has_int8_not_unquoted :
    Vertex.has (fun s => s) ⟨[]⟩ "k" [GoValue.goInt8 5] ≠
      Except.ok (Vertex.add ⟨[]⟩ ⟨".has" ++ unquotedPair "k" "5"⟩) ∧
    Vertex.has (fun s => s) ⟨[]⟩ "k" [GoValue.goInt8 5] =
      Except.ok (Vertex.add ⟨[]⟩ ⟨".has" ++ quotedPair "k" "5"⟩) := by
  constructor
  · intro h
    simp only [Vertex.has, toKeyValueString] at h
    have := Except.ok.inj h
    have h2 := congrArg Vertex.builders this
    simp only [Vertex.add, unquotedPair] at h2
    have h3 := List.head_eq_of_cons_eq h2
    have h4 := congrArg QueryBuilder.render h3
    revert h4
    decide
  · rfl

/-- Claim C10 (amended): `Has` and `Property` return normally unless the
value is of a type outside the switch whose string cast fails; `bool`, the
integer types of the switch arm (`int8` excluded) and `float64` render
unquoted, while `string`, `time.Time`, `int8` (via the always-succeeding
fallback cast) and castable other types render quoted; on success exactly
one builder is appended. -/
theorem has_property_value_rendering :
    ∀ (escape : String → String) (key : String) (vx : Vertex) (value : GoValue),
      ((∃ w, Vertex.has escape vx key [value] = Except.ok w) ↔
        value ≠ GoValue.other none) ∧
      ((∃ w, Vertex.property escape vx key value = Except.ok w) ↔
        value ≠ GoValue.other none) ∧
      (∀ kv, toKeyValueString escape key value = Except.ok kv →
        Vertex.has escape vx key [value] = Except.ok (vx.add ⟨".has" ++ kv⟩) ∧
        Vertex.property escape vx key value = Except.ok (vx.add ⟨".property" ++ kv⟩)) ∧
      (∀ b, toKeyValueString escape key (.goBool b) =
        Except.ok (unquotedPair key (formatBool b))) ∧
      (∀ n : Int,
        toKeyValueString escape key (.goInt n) = Except.ok (unquotedPair key (toString n)) ∧
        toKeyValueString escape key (.goInt16 n) = Except.ok (unquotedPair key (toString n)) ∧
        toKeyValueString escape key (.goInt32 n) = Except.ok (unquotedPair key (toString n)) ∧
        toKeyValueString escape key (.goInt64 n) = Except.ok (unquotedPair key (toString n))) ∧
      (∀ n : Nat,
        toKeyValueString escape key (.goUint n) = Except.ok (unquotedPair key (toString n)) ∧
        toKeyValueString escape key (.goUint8 n) = Except.ok (unquotedPair key (toString n)) ∧
        toKeyValueString escape key (.goUint16 n) = Except.ok (unquotedPair key (toString n)) ∧
        toKeyValueString escape key (.goUint32 n) = Except.ok (unquotedPair key (toString n)) ∧
        toKeyValueString escape key (.goUint64 n) = Except.ok (unquotedPair key (toString n))) ∧
      (∀ r, toKeyValueString escape key (.goFloat64 r) = Except.ok (unquotedPair key r)) ∧
      (∀ s, toKeyValueString escape key (.str s) = Except.ok (quotedPair key (escape s))) ∧
      (∀ r, toKeyValueString escape key (.goTime r) = Except.ok (quotedPair key r)) ∧
      (∀ n : Int, toKeyValueString escape key (.goInt8 n) =
        Except.ok (quotedPair key (escape (toString n)))) ∧
      (∀ s, toKeyValueString escape key (.other (some s)) =
        Except.ok (quotedPair key (escape s))) ∧
      toKeyValueString escape key (.other none) = Except.error "cast to string failed" := by
  intro escape key vx value
  refine ⟨?_, ?_, ?_, fun b => rfl, fun n => ⟨rfl, rfl, rfl, rfl⟩,
    fun n => ⟨rfl, rfl, rfl, rfl, rfl⟩, fun r => rfl, fun s => rfl, fun r => rfl,
    fun n => rfl, fun s => rfl, rfl⟩
  · cases value <;> simp [Vertex.has, toKeyValueString]
    rename_i castResult
    cases castResult <;> simp
  · cases value <;> simp [Vertex.property, toKeyValueString]
    rename_i castResult
    cases castResult <;> simp
  · intro kv hkv
    constructor
    · simp [Vertex.has, hkv]
    · simp [Vertex.property, hkv]

/-- Witness for `has_property_value_rendering` at a concrete input: a
`bool` value renders unquoted and `Has` appends exactly that builder. -/
theorem has_property_value_rendering_witness :
    Vertex.has (fun s => s) ⟨[]⟩ "k" [GoValue.goBool true] =
      Except.ok (Vertex.add ⟨[]⟩ ⟨".has" ++ unquotedPair "k" "true"⟩) :=
  (((has_property_value_rendering (fun s => s) "k" ⟨[]⟩
      (GoValue.goBool true)).2.2.1 (unquotedPair "k" "true") (by rfl)).1)





/- ===================================================================
   Part II: the connection pool, request correlator and connector.
   The Go sources of this layer are not among the provided source
   files (only their integration tests and example callers are), so
   the definitions below are modelled from the specification.
   =================================================================== -/

/-- Modelled from the spec: the status of a response chunk — `part` is the
partial ("more data coming") status, `final` closes the stream for the
request, `failure` is a terminal server failure status.  (The correlator
implementation itself is not among the provided sources.) -/
inductive ChunkStatus where
  | part
  | final
  | failure
deriving DecidableEq, Repr

/-- Modelled from the spec: one server-delivered response frame — request
identifier, status code and raw payload; arrival order is the list order
in which chunks are fed to `dispatch`. -/
structure Chunk where
  reqId : Nat
  status : ChunkStatus
  payload : String
deriving DecidableEq, Repr

/-- Modelled from the spec: a caller-supplied result channel — the chunks
pushed onto it, in push order, and whether it has been closed. -/
structure Channel where
  items : List Chunk
  closed : Bool
deriving DecidableEq, Repr

/-- Modelled from the spec: the request-correlator state — the generator
for fresh request identifiers, the identifiers with an active (registered)
correlator entry, and the caller-side channels (kept observable after
deregistration, since the caller still holds its end of the channel). -/
structure CorrState where
  nextId : Nat
  active : List Nat
  chans : List (Nat × Channel)
deriving DecidableEq, Repr

/-- Looks up the channel registered for `id` (first match). -/
def findChan : List (Nat × Channel) → Nat → Option Channel
  | [], _ => none
  | (i, ch) :: rest, id => if i = id then some ch else findChan rest id

/-- Applies `f` to the channel registered for `id` (first match), leaving
the rest untouched. -/
def updateChan (f : Channel → Channel) : List (Nat × Channel) → Nat → List (Nat × Channel)
  | [], _ => []
  | (i, ch) :: rest, id =>
    if i = id then (i, f ch) :: rest else (i, ch) :: updateChan f rest id

lemma findChan_updateChan_self (f : Channel → Channel) (m : List (Nat × Channel)) (id : Nat) :
    findChan (updateChan f m id) id = (findChan m id).map f := by
  induction m with
  | nil => rfl
  | cons p rest ih =>
    obtain ⟨i, ch⟩ := p
    by_cases h : i = id
    · simp [updateChan, findChan, h]
    · simp [updateChan, findChan, h, ih]

lemma findChan_updateChan_ne (f : Channel → Channel) (m : List (Nat × Channel))
    (id j : Nat) (h : j ≠ id) :
    findChan (updateChan f m j) id = findChan m id := by
  induction m with
  | nil => rfl
  | cons p rest ih =>
    obtain ⟨i, ch⟩ := p
    by_cases hij : i = j
    · subst hij
      simp [updateChan, findChan, h, ih]
    · by_cases hid : i = id
      · simp [updateChan, findChan, hij, hid, Ne.symm h]
      · simp [updateChan, findChan, hij, hid, ih]

lemma updateChan_keys (f : Channel → Channel) (m : List (Nat × Channel)) (j : Nat) :
    ∀ p ∈ updateChan f m j, ∃ q ∈ m, p.1 = q.1 := by
  induction m with
  | nil => intro p hp; cases hp
  | cons q rest ih =>
    obtain ⟨i, ch⟩ := q
    intro p hp
    by_cases hij : i = j
    · simp only [updateChan, if_pos hij, List.mem_cons] at hp
      rcases hp with hp | hp
      · exact ⟨(i, ch), List.mem_cons_self _ _, by simp [hp]⟩
      · exact ⟨p, List.mem_cons_of_mem _ hp, rfl⟩
    · simp only [updateChan, if_neg hij, List.mem_cons] at hp
      rcases hp with hp | hp
      · exact ⟨(i, ch), List.mem_cons_self _ _, by simp [hp]⟩
      · obtain ⟨q', hq', he⟩ := ih p hp
        exact ⟨q', List.mem_cons_of_mem _ hq', he⟩

/-- Pushes a chunk onto a channel (keeps it open). -/
def pushItem (c : Chunk) (ch : Channel) : Channel :=
  ⟨ch.items ++ [c], ch.closed⟩

/-- Pushes a terminal chunk onto a channel and closes it. -/
def closeWith (c : Chunk) (ch : Channel) : Channel :=
  ⟨ch.items ++ [c], true⟩

/-- Closes a channel without delivering anything (cancellation). -/
def closeOnly (ch : Channel) : Channel :=
  ⟨ch.items, true⟩

/-- Modelled from the spec: `Register(id, sink)` with the id drawn from the
generator — called before the request is sent; returns the new state and
the issued request identifier.  (The correlator implementation is not
among the provided sources.) -/
def register (s : CorrState) : CorrState × Nat :=
  (⟨s.nextId + 1, s.nextId :: s.active, (s.nextId, ⟨[], false⟩) :: s.chans⟩, s.nextId)

/-- Modelled from the spec: `Dispatch(chunk)` — unknown id: the chunk is
dropped (state unchanged, not an error); partial status: the chunk is
forwarded to the sink and the entry remains registered; final status: the
chunk is forwarded and the entry is deregistered (the channel closes);
failure status: the terminal failure is delivered and the entry is
deregistered.  (The correlator implementation is not among the provided
sources.) -/
def dispatch (s : CorrState) (c : Chunk) : CorrState :=
  if c.reqId ∈ s.active then
    match c.status with
    | .part => ⟨s.nextId, s.active, updateChan (pushItem c) s.chans c.reqId⟩
    | .final => ⟨s.nextId, s.active.erase c.reqId, updateChan (closeWith c) s.chans c.reqId⟩
    | .failure => ⟨s.nextId, s.active.erase c.reqId, updateChan (closeWith c) s.chans c.reqId⟩
  else s

/-- Modelled from the spec: cancellation of a pending request — the
correlator entry is deregistered and the caller's channel closes; any
subsequent chunk for the id is then treated as unknown.  (The correlator
implementation is not among the provided sources.) -/
def cancel (s : CorrState) (id : Nat) : CorrState :=
  ⟨s.nextId, s.active.erase id, updateChan closeOnly s.chans id⟩

/-- Feeds a list of chunks to the correlator in arrival order. -/
def dispatchAll (s : CorrState) (cs : List Chunk) : CorrState :=
  cs.foldl dispatch s

/-- Modelled from the spec: one correlator-visible event — a registration,
a chunk arrival, or a cancellation; concurrency is an arbitrary
interleaving of these events (the correlator's map is serialized
internally). -/
inductive CorrStep : CorrState → CorrState → Prop where
  | reg (s : CorrState) : CorrStep s (register s).1
  | disp (s : CorrState) (c : Chunk) : CorrStep s (dispatch s c)
  | canc (s : CorrState) (id : Nat) : CorrStep s (cancel s id)

/-- Correlator states reachable from the empty initial state. -/
inductive CorrReach : CorrState → Prop where
  | init : CorrReach ⟨0, [], []⟩
  | step {s s' : CorrState} : CorrReach s → CorrStep s s' → CorrReach s'

/-- The correlator invariant: active ids are distinct and below the
generator, channel keys are below the generator, every active id has an
open channel, and a channel is closed exactly when its id has no active
entry. -/
structure CorrInv (s : CorrState) : Prop where
  activeNodup : s.active.Nodup
  activeLt : ∀ id ∈ s.active, id < s.nextId
  chanKeysLt : ∀ p ∈ s.chans, p.1 < s.nextId
  activeHasChan : ∀ id ∈ s.active, (findChan s.chans id).isSome
  closedIffInactive : ∀ id ch, findChan s.chans id = some ch → (ch.closed = true ↔ id ∉ s.active)

lemma corrInv_init : CorrInv ⟨0, [], []⟩ := by
  refine ⟨List.nodup_nil, ?_, ?_, ?_, ?_⟩
  · intro id h; cases h
  · intro p h; cases h
  · intro id h; cases h
  · intro id ch h; cases h

lemma corrInv_register {s : CorrState} (h : CorrInv s) : CorrInv (register s).1 := by
  obtain ⟨hnd, hlt, hklt, hhas, hcl⟩ := h
  show CorrInv ⟨s.nextId + 1, s.nextId :: s.active, (s.nextId, ⟨[], false⟩) :: s.chans⟩
  refine ⟨?_, ?_, ?_, ?_, ?_⟩
  · exact List.nodup_cons.mpr ⟨fun hm => Nat.lt_irrefl _ (hlt _ hm), hnd⟩
  · intro id hm
    rcases List.mem_cons.mp hm with hm | hm
    · subst hm; exact Nat.lt_succ_self _
    · exact Nat.lt_succ_of_lt (hlt _ hm)
  · intro p hp
    rcases List.mem_cons.mp hp with hp | hp
    · subst hp; exact Nat.lt_succ_self _
    · exact Nat.lt_succ_of_lt (hklt _ hp)
  · intro id hm
    rcases List.mem_cons.mp hm with hm | hm
    · subst hm
      simp [findChan]
    · have hne : s.nextId ≠ id := fun he => Nat.lt_irrefl _ (he ▸ hlt _ hm)
      show (findChan ((s.nextId, ⟨[], false⟩) :: s.chans) id).isSome = true
      simp only [findChan, if_neg hne]
      exact hhas _ hm
  · intro id ch hf
    show ch.closed = true ↔ id ∉ s.nextId :: s.active
    by_cases hne : s.nextId = id
    · subst hne
      simp only [findChan, if_pos rfl] at hf
      have hch : ch = ⟨[], false⟩ := by injection hf with hh; exact hh.symm
      subst hch
      constructor
      · intro hc; cases hc
      · intro hm; exact absurd (List.mem_cons_self _ _) hm
    · simp only [findChan, if_neg hne] at hf
      rw [hcl _ _ hf]
      constructor
      · intro hm hmem
        rcases List.mem_cons.mp hmem with he | he
        · exact hne he.symm
        · exact hm he
      · intro hm hmem
        exact hm (List.mem_cons_of_mem _ hmem)

lemma corrInv_dispatch {s : CorrState} (h : CorrInv s) (c : Chunk) : CorrInv (dispatch s c) := by
  obtain ⟨hnd, hlt, hklt, hhas, hcl⟩ := h
  unfold dispatch
  by_cases hmem : c.reqId ∈ s.active
  · rw [if_pos hmem]
    have hkeys : ∀ (f : Channel → Channel) (p : Nat × Channel),
        p ∈ updateChan f s.chans c.reqId → p.1 < s.nextId := by
      intro f p hp
      obtain ⟨q, hq, he⟩ := updateChan_keys f s.chans c.reqId p hp
      exact he ▸ hklt _ hq
    have hsome : ∀ f : Channel → Channel, ∀ id ∈ s.active,
        (findChan (updateChan f s.chans c.reqId) id).isSome = true := by
      intro f id hm
      by_cases hid : id = c.reqId
      · subst hid
        rw [findChan_updateChan_self]
        have hs := hhas _ hm
        cases hfo : findChan s.chans c.reqId with
        | none => rw [hfo] at hs; cases hs
        | some ch0 => rfl
      · rw [findChan_updateChan_ne _ _ _ _ (fun he => hid he.symm)]
        exact hhas _ hm
    cases hst : c.status with
    | part =>
      refine ⟨hnd, hlt, fun p hp => hkeys _ p hp, fun id hm => hsome _ id hm, ?_⟩
      intro id ch hf
      by_cases hid : id = c.reqId
      · subst hid
        rw [findChan_updateChan_self] at hf
        cases hfo : findChan s.chans c.reqId with
        | none => rw [hfo] at hf; cases hf
        | some ch0 =>
          rw [hfo] at hf
          have hch : ch = pushItem c ch0 := by injection hf with hh; exact hh.symm
          subst hch
          show ch0.closed = true ↔ c.reqId ∉ s.active
          exact hcl _ _ hfo
      · rw [findChan_updateChan_ne _ _ _ _ (fun he => hid he.symm)] at hf
        exact hcl _ _ hf
    | final =>
      refine ⟨hnd.erase _, fun id hm => hlt _ (List.mem_of_mem_erase hm),
        fun p hp => hkeys _ p hp, ?_, ?_⟩
      · intro id hm
        have hid : id ≠ c.reqId := fun he => hnd.not_mem_erase (he ▸ hm)
        rw [findChan_updateChan_ne _ _ _ _ (fun he => hid he.symm)]
        exact hhas _ (List.mem_of_mem_erase hm)
      · intro id ch hf
        by_cases hid : id = c.reqId
        · subst hid
          rw [findChan_updateChan_self] at hf
          cases hfo : findChan s.chans c.reqId with
          | none => rw [hfo] at hf; cases hf
          | some ch0 =>
            rw [hfo] at hf
            have hch : ch = closeWith c ch0 := by injection hf with hh; exact hh.symm
            subst hch
            simp only [closeWith, true_iff]
            exact hnd.not_mem_erase
        · rw [findChan_updateChan_ne _ _ _ _ (fun he => hid he.symm)] at hf
          rw [hcl _ _ hf, List.Nodup.mem_erase_iff hnd]
          constructor
          · intro hm ⟨_, hmem⟩; exact hm hmem
          · intro hm hmem; exact hm ⟨hid, hmem⟩
    | failure =>
      refine ⟨hnd.erase _, fun id hm => hlt _ (List.mem_of_mem_erase hm),
        fun p hp => hkeys _ p hp, ?_, ?_⟩
      · intro id hm
        have hid : id ≠ c.reqId := fun he => hnd.not_mem_erase (he ▸ hm)
        rw [findChan_updateChan_ne _ _ _ _ (fun he => hid he.symm)]
        exact hhas _ (List.mem_of_mem_erase hm)
      · intro id ch hf
        by_cases hid : id = c.reqId
        · subst hid
          rw [findChan_updateChan_self] at hf
          cases hfo : findChan s.chans c.reqId with
          | none => rw [hfo] at hf; cases hf
          | some ch0 =>
            rw [hfo] at hf
            have hch : ch = closeWith c ch0 := by injection hf with hh; exact hh.symm
            subst hch
            simp only [closeWith, true_iff]
            exact hnd.not_mem_erase
        · rw [findChan_updateChan_ne _ _ _ _ (fun he => hid he.symm)] at hf
          rw [hcl _ _ hf, List.Nodup.mem_erase_iff hnd]
          constructor
          · intro hm ⟨_, hmem⟩; exact hm hmem
          · intro hm hmem; exact hm ⟨hid, hmem⟩
  · rw [if_neg hmem]
    exact ⟨hnd, hlt, hklt, hhas, hcl⟩

lemma corrInv_cancel {s : CorrState} (h : CorrInv s) (id0 : Nat) : CorrInv (cancel s id0) := by
  obtain ⟨hnd, hlt, hklt, hhas, hcl⟩ := h
  refine ⟨hnd.erase _, fun id hm => hlt _ (List.mem_of_mem_erase hm), ?_, ?_, ?_⟩
  · intro p hp
    obtain ⟨q, hq, he⟩ := updateChan_keys closeOnly s.chans id0 p hp
    exact he ▸ hklt _ hq
  · intro id hm
    have hid : id ≠ id0 := fun he => hnd.not_mem_erase (he ▸ hm)
    show (findChan (updateChan closeOnly s.chans id0) id).isSome = true
    rw [findChan_updateChan_ne _ _ _ _ (fun he => hid he.symm)]
    exact hhas _ (List.mem_of_mem_erase hm)
  · intro id ch hf
    show ch.closed = true ↔ id ∉ s.active.erase id0
    by_cases hid : id = id0
    · subst hid
      replace hf : findChan (updateChan closeOnly s.chans id) id = some ch := hf
      rw [findChan_updateChan_self] at hf
      cases hfo : findChan s.chans id with
      | none => rw [hfo] at hf; cases hf
      | some ch0 =>
        rw [hfo] at hf
        have hch : ch = closeOnly ch0 := by injection hf with hh; exact hh.symm
        subst hch
        simp only [closeOnly, true_iff]
        exact hnd.not_mem_erase
    · replace hf : findChan (updateChan closeOnly s.chans id0) id = some ch := hf
      rw [findChan_updateChan_ne _ _ _ _ (fun he => hid he.symm)] at hf
      rw [hcl _ _ hf, List.Nodup.mem_erase_iff hnd]
      constructor
      · intro hm ⟨_, hmem⟩; exact hm hmem
      · intro hm hmem; exact hm ⟨hid, hmem⟩

lemma corrInv_step {s s' : CorrState} (h : CorrInv s) (hs : CorrStep s s') : CorrInv s' := by
  cases hs with
  | reg => exact corrInv_register h
  | disp c => exact corrInv_dispatch h c
  | canc id => exact corrInv_cancel h id

lemma corrInv_reach {s : CorrState} (h : CorrReach s) : CorrInv s := by
  induction h with
  | init => exact corrInv_init
  | step _ hs ih => exact corrInv_step ih hs

lemma dispatch_frame (s : CorrState) (c : Chunk) (id : Nat) (hne : c.reqId ≠ id) :
    ((id ∈ (dispatch s c).active) ↔ id ∈ s.active) ∧
    findChan (dispatch s c).chans id = findChan s.chans id := by
  unfold dispatch
  by_cases hmem : c.reqId ∈ s.active
  · rw [if_pos hmem]
    cases c.status with
    | part => exact ⟨Iff.rfl, findChan_updateChan_ne _ _ _ _ hne⟩
    | final => exact ⟨List.mem_erase_of_ne (fun he => hne he.symm), findChan_updateChan_ne _ _ _ _ hne⟩
    | failure => exact ⟨List.mem_erase_of_ne (fun he => hne he.symm), findChan_updateChan_ne _ _ _ _ hne⟩
  · rw [if_neg hmem]
    exact ⟨Iff.rfl, rfl⟩

lemma dispatch_nodup {s : CorrState} (h : s.active.Nodup) (c : Chunk) :
    (dispatch s c).active.Nodup := by
  unfold dispatch
  by_cases hmem : c.reqId ∈ s.active
  · rw [if_pos hmem]
    cases c.status with
    | part => exact h
    | final => exact h.erase _
    | failure => exact h.erase _
  · rw [if_neg hmem]
    exact h

lemma dispatch_part_self (s : CorrState) (c : Chunk) (hmem : c.reqId ∈ s.active)
    (hst : c.status = ChunkStatus.part) :
    (dispatch s c).active = s.active ∧
    findChan (dispatch s c).chans c.reqId = (findChan s.chans c.reqId).map (pushItem c) := by
  have hd : dispatch s c = ⟨s.nextId, s.active, updateChan (pushItem c) s.chans c.reqId⟩ := by
    simp only [dispatch, if_pos hmem, hst]
  rw [hd]
  exact ⟨rfl, findChan_updateChan_self _ _ _⟩

lemma dispatch_final_self (s : CorrState) (c : Chunk) (hmem : c.reqId ∈ s.active)
    (hnd : s.active.Nodup) (hst : c.status = ChunkStatus.final) :
    c.reqId ∉ (dispatch s c).active ∧
    findChan (dispatch s c).chans c.reqId = (findChan s.chans c.reqId).map (closeWith c) := by
  have hd : dispatch s c =
      ⟨s.nextId, s.active.erase c.reqId, updateChan (closeWith c) s.chans c.reqId⟩ := by
    simp only [dispatch, if_pos hmem, hst]
  rw [hd]
  exact ⟨hnd.not_mem_erase, findChan_updateChan_self _ _ _⟩

lemma dispatch_terminal_self (s : CorrState) (c : Chunk) (hmem : c.reqId ∈ s.active)
    (hnd : s.active.Nodup) (hst : c.status ≠ ChunkStatus.part) :
    c.reqId ∉ (dispatch s c).active ∧
    findChan (dispatch s c).chans c.reqId = (findChan s.chans c.reqId).map (closeWith c) := by
  cases hs : c.status with
  | part => exact absurd hs hst
  | final =>
    have hd : dispatch s c =
        ⟨s.nextId, s.active.erase c.reqId, updateChan (closeWith c) s.chans c.reqId⟩ := by
      simp only [dispatch, if_pos hmem, hs]
    rw [hd]
    exact ⟨hnd.not_mem_erase, findChan_updateChan_self _ _ _⟩
  | failure =>
    have hd : dispatch s c =
        ⟨s.nextId, s.active.erase c.reqId, updateChan (closeWith c) s.chans c.reqId⟩ := by
      simp only [dispatch, if_pos hmem, hs]
    rw [hd]
    exact ⟨hnd.not_mem_erase, findChan_updateChan_self _ _ _⟩

lemma dispatchAll_closed (id : Nat) (ch : Channel) :
    ∀ (ds : List Chunk) (s : CorrState),
      id ∉ s.active → findChan s.chans id = some ch →
      id ∉ (dispatchAll s ds).active ∧ findChan (dispatchAll s ds).chans id = some ch := by
  intro ds
  induction ds with
  | nil => intro s h1 h2; exact ⟨h1, h2⟩
  | cons c rest ih =>
    intro s h1 h2
    show id ∉ (dispatchAll (dispatch s c) rest).active ∧
      findChan (dispatchAll (dispatch s c) rest).chans id = some ch
    by_cases hne : c.reqId = id
    · subst hne
      have huc : dispatch s c = s := by
        unfold dispatch
        rw [if_neg h1]
      rw [huc]
      exact ih s h1 h2
    · obtain ⟨hiff, hfc⟩ := dispatch_frame s c id hne
      exact ih (dispatch s c) (fun hm => h1 (hiff.mp hm)) (hfc.trans h2)

lemma dispatchAll_pending (id : Nat) :
    ∀ (cs : List Chunk) (s : CorrState) (done : List Chunk),
      s.active.Nodup → id ∈ s.active →
      findChan s.chans id = some ⟨done, false⟩ →
      (∀ c ∈ cs, c.reqId = id → c.status = ChunkStatus.part) →
      (dispatchAll s cs).active.Nodup ∧
      id ∈ (dispatchAll s cs).active ∧
      findChan (dispatchAll s cs).chans id =
        some ⟨done ++ cs.filter (fun c => decide (c.reqId = id)), false⟩ := by
  intro cs
  induction cs with
  | nil =>
    intro s done hnd hmem hfc _
    exact ⟨hnd, hmem, by simpa using hfc⟩
  | cons c rest ih =>
    intro s done hnd hmem hfc hpart
    show (dispatchAll (dispatch s c) rest).active.Nodup ∧
      id ∈ (dispatchAll (dispatch s c) rest).active ∧
      findChan (dispatchAll (dispatch s c) rest).chans id =
        some ⟨done ++ (c :: rest).filter (fun c => decide (c.reqId = id)), false⟩
    by_cases hcid : c.reqId = id
    · have hst : c.status = ChunkStatus.part :=
        hpart c (List.mem_cons_self _ _) hcid
      have hmem' : c.reqId ∈ s.active := hcid ▸ hmem
      obtain ⟨hact, hf⟩ := dispatch_part_self s c hmem' hst
      have hfc' : findChan (dispatch s c).chans id = some ⟨done ++ [c], false⟩ := by
        rw [hcid] at hf
        rw [hf, hfc]
        rfl
      have hmem2 : id ∈ (dispatch s c).active := by rw [hact]; exact hmem
      have hnd2 : (dispatch s c).active.Nodup := by rw [hact]; exact hnd
      obtain ⟨a, b, d⟩ := ih (dispatch s c) (done ++ [c]) hnd2 hmem2 hfc'
        (fun x hx => hpart x (List.mem_cons_of_mem _ hx))
      refine ⟨a, b, ?_⟩
      rw [d]
      have hfil : (c :: rest).filter (fun c => decide (c.reqId = id)) =
          c :: rest.filter (fun c => decide (c.reqId = id)) := by
        have hb : decide (c.reqId = id) = true := decide_eq_true hcid
        simp [List.filter, hb]
      rw [hfil]
      simp
    · obtain ⟨hiff, hf⟩ := dispatch_frame s c id hcid
      have hfil : (c :: rest).filter (fun c => decide (c.reqId = id)) =
          rest.filter (fun c => decide (c.reqId = id)) := by
        have hb : decide (c.reqId = id) = false := decide_eq_false hcid
        simp [List.filter, hb]
      rw [hfil]
      exact ih (dispatch s c) done (dispatch_nodup hnd c) (hiff.mpr hmem) (hf.trans hfc)
        (fun x hx => hpart x (List.mem_cons_of_mem _ hx))

/-- The shape of a request's chunk sequence as described by the spec: at
least one chunk, every chunk tagged with the request's id, every chunk
before the last carrying the partial status, and the last carrying a
terminal status (final or failure), which closes the stream. -/
inductive StreamShape (id : Nat) : List Chunk → Prop where
  | fin (c : Chunk) : c.reqId = id → c.status ≠ ChunkStatus.part → StreamShape id [c]
  | more (c : Chunk) (cs : List Chunk) : c.reqId = id → c.status = ChunkStatus.part →
      StreamShape id cs → StreamShape id (c :: cs)

lemma streamShape_of_explicit (id : Nat) :
    ∀ cs : List Chunk, cs ≠ [] →
      (∀ c ∈ cs, c.reqId = id) →
      (∀ c ∈ cs.dropLast, c.status = ChunkStatus.part) →
      (∀ h : cs ≠ [], (cs.getLast h).status ≠ ChunkStatus.part) →
      StreamShape id cs := by
  intro cs
  induction cs with
  | nil => intro h; exact absurd rfl h
  | cons c rest ih =>
    intro _ hid hpart hlast
    by_cases hrne : rest = []
    · subst hrne
      exact StreamShape.fin c (hid c (List.mem_cons_self _ _)) (hlast (by simp))
    · have hdrop : (c :: rest).dropLast = c :: rest.dropLast := by
        cases rest with
        | nil => exact absurd rfl hrne
        | cons r rest' => rfl
      refine StreamShape.more c rest (hid c (List.mem_cons_self _ _)) ?_ ?_
      · have hcm : c ∈ (c :: rest).dropLast := by
          rw [hdrop]; exact List.mem_cons_self _ _
        exact hpart c hcm
      · refine ih hrne (fun x hx => hid x (List.mem_cons_of_mem _ hx)) ?_ ?_
        · intro x hx
          have hxm : x ∈ (c :: rest).dropLast := by
            rw [hdrop]; exact List.mem_cons_of_mem _ hx
          exact hpart x hxm
        · intro h
          have hgl := hlast (List.cons_ne_nil _ _)
          rwa [List.getLast_cons h] at hgl

lemma streamShape_cons_inv {id : Nat} {c : Chunk} {cs : List Chunk}
    (h : StreamShape id (c :: cs)) :
    c.reqId = id ∧
      ((c.status ≠ ChunkStatus.part ∧ cs = []) ∨
       (c.status = ChunkStatus.part ∧ StreamShape id cs)) := by
  cases h with
  | fin _ h1 h2 => exact ⟨h1, Or.inl ⟨h2, rfl⟩⟩
  | more _ _ h1 h2 h3 => exact ⟨h1, Or.inr ⟨h2, h3⟩⟩

lemma dispatchAll_deliver (id : Nat) :
    ∀ (cs : List Chunk) (s : CorrState) (done : List Chunk),
      s.active.Nodup → id ∈ s.active →
      findChan s.chans id = some ⟨done, false⟩ →
      StreamShape id (cs.filter (fun c => decide (c.reqId = id))) →
      id ∉ (dispatchAll s cs).active ∧
      findChan (dispatchAll s cs).chans id =
        some ⟨done ++ cs.filter (fun c => decide (c.reqId = id)), true⟩ := by
  intro cs
  induction cs with
  | nil =>
    intro s done _ _ _ hshape
    cases hshape
  | cons c rest ih =>
    intro s done hnd hmem hfc hshape
    show id ∉ (dispatchAll (dispatch s c) rest).active ∧
      findChan (dispatchAll (dispatch s c) rest).chans id =
        some ⟨done ++ (c :: rest).filter (fun c => decide (c.reqId = id)), true⟩
    by_cases hcid : c.reqId = id
    · have hb : decide (c.reqId = id) = true := decide_eq_true hcid
      have hfil : (c :: rest).filter (fun c => decide (c.reqId = id)) =
          c :: rest.filter (fun c => decide (c.reqId = id)) := by
        simp [List.filter, hb]
      rw [hfil] at hshape ⊢
      obtain ⟨_, hor⟩ := streamShape_cons_inv hshape
      rcases hor with ⟨hst, hnil⟩ | ⟨hst, hsh⟩
      · obtain ⟨hout, hf⟩ := dispatch_terminal_self s c (hcid ▸ hmem) hnd hst
        rw [hcid] at hout hf
        have hfc' : findChan (dispatch s c).chans id = some ⟨done ++ [c], true⟩ := by
          rw [hf, hfc]; rfl
        obtain ⟨ha, hb2⟩ := dispatchAll_closed id ⟨done ++ [c], true⟩ rest (dispatch s c) hout hfc'
        refine ⟨ha, ?_⟩
        rw [hb2, hnil]
      · obtain ⟨hact, hf⟩ := dispatch_part_self s c (hcid ▸ hmem) hst
        rw [hcid] at hf
        have hfc' : findChan (dispatch s c).chans id = some ⟨done ++ [c], false⟩ := by
          rw [hf, hfc]; rfl
        have hmem2 : id ∈ (dispatch s c).active := by rw [hact]; exact hmem
        have hnd2 : (dispatch s c).active.Nodup := by rw [hact]; exact hnd
        obtain ⟨ha, hb2⟩ := ih (dispatch s c) (done ++ [c]) hnd2 hmem2 hfc' hsh
        refine ⟨ha, ?_⟩
        rw [hb2]
        simp
    · have hb : decide (c.reqId = id) = false := decide_eq_false hcid
      have hfil : (c :: rest).filter (fun c => decide (c.reqId = id)) =
          rest.filter (fun c => decide (c.reqId = id)) := by
        simp [List.filter, hb]
      rw [hfil] at hshape ⊢
      obtain ⟨hiff, hf⟩ := dispatch_frame s c id hcid
      exact ih (dispatch s c) done (dispatch_nodup hnd c) (hiff.mpr hmem) (hf.trans hfc) hshape

/-- Claim C2: a request whose chunk sequence (the chunks of the arrival
stream tagged with its id) has at least one chunk, all partial except a
final last one, is delivered exactly those chunks in server-send order;
the stream then terminates (the channel is closed, the entry is
deregistered) and no later arrival — of any id — delivers another chunk or
a duplicate final to that request's channel. -/
theorem request_chunk_stream_exact (s : CorrState) (id : Nat) (cs ds mine : List Chunk)
    (hnd : s.active.Nodup)
    (hmem : id ∈ s.active)
    (hfc : findChan s.chans id = some ⟨[], false⟩)
    (hmine : mine = cs.filter (fun c => decide (c.reqId = id)))
    (hne : mine ≠ [])
    (hpart : ∀ c ∈ mine.dropLast, c.status = ChunkStatus.part)
    (hlast : ∀ h : mine ≠ [], (mine.getLast h).status = ChunkStatus.final) :
    findChan (dispatchAll s cs).chans id = some ⟨mine, true⟩ ∧
    id ∉ (dispatchAll s cs).active ∧
    findChan (dispatchAll (dispatchAll s cs) ds).chans id = some ⟨mine, true⟩ ∧
    id ∉ (dispatchAll (dispatchAll s cs) ds).active := by
  have hid : ∀ c ∈ mine, c.reqId = id := by
    intro c hc
    rw [hmine] at hc
    have := List.of_mem_filter hc
    exact of_decide_eq_true this
  have hshape : StreamShape id (cs.filter (fun c => decide (c.reqId = id))) := by
    rw [← hmine]
    exact streamShape_of_explicit id mine hne hid hpart
      (fun h => by rw [hlast h]; intro hc; cases hc)
  obtain ⟨hout, hf⟩ := dispatchAll_deliver id cs s [] hnd hmem hfc hshape
  rw [← hmine] at hf
  simp only [List.nil_append] at hf
  obtain ⟨hout2, hf2⟩ := dispatchAll_closed id ⟨mine, true⟩ ds (dispatchAll s cs) hout hf
  exact ⟨hf, hout, hf2, hout2⟩

/-- Witness for `request_chunk_stream_exact`: a concrete registered
request 0 receiving a partial and a final chunk, interleaved with a chunk
of another request and followed by a late chunk. -/
theorem request_chunk_stream_exact_witness :
    findChan (dispatchAll ⟨2, [0, 1], [(0, ⟨[], false⟩), (1, ⟨[], false⟩)]⟩
        [⟨0, ChunkStatus.part, "a"⟩, ⟨1, ChunkStatus.part, "z"⟩, ⟨0, ChunkStatus.final, "b"⟩]).chans 0 =
      some ⟨[⟨0, ChunkStatus.part, "a"⟩, ⟨0, ChunkStatus.final, "b"⟩], true⟩ :=
  (request_chunk_stream_exact ⟨2, [0, 1], [(0, ⟨[], false⟩), (1, ⟨[], false⟩)]⟩ 0
    [⟨0, ChunkStatus.part, "a"⟩, ⟨1, ChunkStatus.part, "z"⟩, ⟨0, ChunkStatus.final, "b"⟩]
    [⟨0, ChunkStatus.part, "late"⟩]
    [⟨0, ChunkStatus.part, "a"⟩, ⟨0, ChunkStatus.final, "b"⟩]
    (by decide) (by decide) rfl (by decide) (by decide)
    (by intro c hc; fin_cases hc; rfl) (fun h => rfl)).1

/-- Claim C3: in every reachable correlator state the active entries are
pairwise distinct (at most one active entry per id), a freshly issued
request identifier is never one that is still outstanding, and a dispatch
removes an active entry exactly when it delivers that entry's final or
failure chunk. -/
theorem correlator_entry_lifecycle (s : CorrState) (h : CorrReach s) :
    s.active.Nodup ∧
    (register s).2 ∉ s.active ∧
    (∀ (c : Chunk) (id : Nat), id ∈ s.active →
      (id ∉ (dispatch s c).active ↔ (c.reqId = id ∧ c.status ≠ ChunkStatus.part))) := by
  obtain ⟨hnd, hlt, _, _, _⟩ := corrInv_reach h
  refine ⟨hnd, fun hm => Nat.lt_irrefl _ (hlt _ hm), ?_⟩
  intro c id hmem
  unfold dispatch
  by_cases hcm : c.reqId ∈ s.active
  · rw [if_pos hcm]
    cases hst : c.status with
    | part =>
      simp only []
      constructor
      · intro hni; exact absurd hmem hni
      · intro ⟨_, hne⟩; exact absurd rfl hne
    | final =>
      simp only []
      constructor
      · intro hni
        by_cases hce : c.reqId = id
        · exact ⟨hce, by intro hc; cases hc⟩
        · exact absurd ((List.mem_erase_of_ne (fun he => hce he.symm)).mpr hmem) hni
      · intro ⟨hce, _⟩
        rw [← hce]
        exact hnd.not_mem_erase
    | failure =>
      simp only []
      constructor
      · intro hni
        by_cases hce : c.reqId = id
        · exact ⟨hce, by intro hc; cases hc⟩
        · exact absurd ((List.mem_erase_of_ne (fun he => hce he.symm)).mpr hmem) hni
      · intro ⟨hce, _⟩
        rw [← hce]
        exact hnd.not_mem_erase
  · rw [if_neg hcm]
    constructor
    · intro hni; exact absurd hmem hni
    · intro ⟨hce, _⟩; exact absurd (hce ▸ hmem) hcm

/-- Witness for `correlator_entry_lifecycle`: the state reached by two
registrations followed by dispatching request 0's final chunk is
duplicate-free and its fresh id 2 is not outstanding. -/
theorem correlator_entry_lifecycle_witness :
    (dispatch (register (register ⟨0, [], []⟩).1).1 ⟨0, ChunkStatus.final, "x"⟩).active.Nodup :=
  (correlator_entry_lifecycle _
    (CorrReach.step (CorrReach.step (CorrReach.step CorrReach.init (CorrStep.reg _))
      (CorrStep.reg _)) (CorrStep.disp _ ⟨0, ChunkStatus.final, "x"⟩))).1

/-- Claim C4: `Dispatch` on a chunk with an unregistered id drops the
chunk (the state is unchanged and no error is produced — `dispatch` is
total); on a registered id, a partial chunk is forwarded to the sink with
the entry remaining registered, and a final chunk is forwarded with the
entry deregistered. -/
theorem dispatch_chunk_handling (s : CorrState) (c : Chunk) (ch : Channel)
    (hnd : s.active.Nodup) :
    (c.reqId ∉ s.active → dispatch s c = s) ∧
    (c.reqId ∈ s.active → findChan s.chans c.reqId = some ch →
      (c.status = ChunkStatus.part →
        (dispatch s c).active = s.active ∧
        c.reqId ∈ (dispatch s c).active ∧
        findChan (dispatch s c).chans c.reqId = some ⟨ch.items ++ [c], ch.closed⟩) ∧
      (c.status = ChunkStatus.final →
        c.reqId ∉ (dispatch s c).active ∧
        findChan (dispatch s c).chans c.reqId = some ⟨ch.items ++ [c], true⟩)) := by
  constructor
  · intro hni
    unfold dispatch
    rw [if_neg hni]
  · intro hmem hfc
    constructor
    · intro hst
      obtain ⟨hact, hf⟩ := dispatch_part_self s c hmem hst
      refine ⟨hact, by rw [hact]; exact hmem, ?_⟩
      rw [hf, hfc]
      rfl
    · intro hst
      obtain ⟨hout, hf⟩ := dispatch_final_self s c hmem hnd hst
      refine ⟨hout, ?_⟩
      rw [hf, hfc]
      rfl

/-- Witness for `dispatch_chunk_handling`: dispatching a final chunk for
registered request 0 deregisters it and closes the channel with the chunk
appended. -/
theorem dispatch_chunk_handling_witness :
    0 ∉ (dispatch ⟨1, [0], [(0, ⟨[], false⟩)]⟩ ⟨0, ChunkStatus.final, "x"⟩).active ∧
    findChan (dispatch ⟨1, [0], [(0, ⟨[], false⟩)]⟩ ⟨0, ChunkStatus.final, "x"⟩).chans 0 =
      some ⟨[⟨0, ChunkStatus.final, "x"⟩], true⟩ :=
  ((dispatch_chunk_handling ⟨1, [0], [(0, ⟨[], false⟩)]⟩ ⟨0, ChunkStatus.final, "x"⟩
    ⟨[], false⟩ (by decide)).2 (by decide) rfl).2 rfl

/-- Modelled from the spec: the pool as seen by `ExecuteAsync` — whether
`Stop()` has put it into the draining ("stopping") mode, and the
correlator it registers requests with.  (The pool implementation is not
among the provided sources.) -/
structure AsyncPool where
  stopping : Bool
  corr : CorrState
deriving DecidableEq, Repr

/-- Modelled from the spec: `ExecuteAsync(script, out)` — non-blocking; a
stopping pool refuses the request with a "pool stopping" submission
error; otherwise the request is registered (creating the caller's
channel) and the call returns immediately; chunks then stream to the
channel until the correlator closes it.  (The pool implementation is not
among the provided sources.) -/
def executeAsync (p : AsyncPool) (_script : String) : Except String (AsyncPool × Nat) :=
  if p.stopping then Except.error "pool stopping"
  else Except.ok (⟨p.stopping, (register p.corr).1⟩, (register p.corr).2)

/-- Claim C5: `ExecuteAsync` returns an error exactly on immediate
submission failure (the pool stopping); otherwise it registers the
request with a fresh open channel and every chunk for the request is
pushed onto the channel in arrival order — both while the request is
pending (all chunks so far partial, channel still open) and through the
terminal final-or-failure chunk, after which the channel holds exactly
all the request's chunks and is closed with the entry deregistered; and
in every reachable correlator state a channel is closed exactly when its
correlator entry has been deregistered. -/
theorem executeAsync_contract :
    ∀ (p : AsyncPool) (script : String),
      ((∃ e, executeAsync p script = Except.error e) ↔ p.stopping = true) ∧
      (∀ (p' : AsyncPool) (id : Nat), CorrReach p.corr →
        executeAsync p script = Except.ok (p', id) →
        id ∈ p'.corr.active ∧
        findChan p'.corr.chans id = some ⟨[], false⟩ ∧
        (∀ cs : List Chunk, (∀ c ∈ cs, c.reqId = id → c.status = ChunkStatus.part) →
          id ∈ (dispatchAll p'.corr cs).active ∧
          findChan (dispatchAll p'.corr cs).chans id =
            some ⟨cs.filter (fun c => decide (c.reqId = id)), false⟩) ∧
        (∀ cs mine : List Chunk,
          mine = cs.filter (fun c => decide (c.reqId = id)) →
          mine ≠ [] →
          (∀ c ∈ mine.dropLast, c.status = ChunkStatus.part) →
          (∀ h : mine ≠ [], (mine.getLast h).status ≠ ChunkStatus.part) →
          findChan (dispatchAll p'.corr cs).chans id = some ⟨mine, true⟩ ∧
          id ∉ (dispatchAll p'.corr cs).active)) ∧
      (CorrReach p.corr → ∀ (id : Nat) (ch : Channel),
        findChan p.corr.chans id = some ch → (ch.closed = true ↔ id ∉ p.corr.active)) := by
  intro p script
  refine ⟨?_, ?_, ?_⟩
  · constructor
    · rintro ⟨e, he⟩
      by_cases hs : p.stopping
      · exact hs
      · rw [executeAsync, if_neg hs] at he
        cases he
    · intro hs
      exact ⟨"pool stopping", by rw [executeAsync, if_pos hs]⟩
  · intro p' id hreach hok
    by_cases hs : p.stopping
    · rw [executeAsync, if_pos hs] at hok
      cases hok
    · rw [executeAsync, if_neg hs] at hok
      have hpair := Except.ok.inj hok
      have hp' : p' = ⟨p.stopping, (register p.corr).1⟩ := (congrArg Prod.fst hpair).symm
      have hid : id = (register p.corr).2 := (congrArg Prod.snd hpair).symm
      subst hp'
      subst hid
      have hreach' : CorrReach (register p.corr).1 :=
        CorrReach.step hreach (CorrStep.reg _)
      have hmem : (register p.corr).2 ∈ (register p.corr).1.active :=
        List.mem_cons_self _ _
      have hfc : findChan (register p.corr).1.chans (register p.corr).2 =
          some ⟨[], false⟩ := by
        show findChan ((p.corr.nextId, ⟨[], false⟩) :: p.corr.chans) p.corr.nextId =
          some ⟨[], false⟩
        simp [findChan]
      have hnd := (corrInv_reach hreach').activeNodup
      refine ⟨hmem, hfc, ?_, ?_⟩
      · intro cs hcs
        obtain ⟨_, hm, hf⟩ := dispatchAll_pending (register p.corr).2 cs
          (register p.corr).1 [] hnd hmem hfc hcs
        refine ⟨hm, ?_⟩
        rw [hf]
        simp
      · intro cs mine hmine hne hpart hlast
        have hidall : ∀ c ∈ mine, c.reqId = (register p.corr).2 := by
          intro c hc
          rw [hmine] at hc
          have hp := List.of_mem_filter hc
          exact of_decide_eq_true hp
        have hshape : StreamShape (register p.corr).2
            (cs.filter (fun c => decide (c.reqId = (register p.corr).2))) := by
          rw [← hmine]
          exact streamShape_of_explicit _ mine hne hidall hpart hlast
        obtain ⟨hout, hf⟩ := dispatchAll_deliver (register p.corr).2 cs
          (register p.corr).1 [] hnd hmem hfc hshape
        rw [← hmine] at hf
        simp only [List.nil_append] at hf
        exact ⟨hf, hout⟩
  · intro hreach id ch hf
    exact (corrInv_reach hreach).closedIffInactive id ch hf

/-- Witness for `executeAsync_contract`: on a fresh non-stopping pool,
`ExecuteAsync` issues request 0, registered and with an open empty
channel, and after a partial chunk followed by a terminal failure chunk
the channel holds exactly both chunks and is closed. -/
theorem executeAsync_contract_witness :
    (0 : Nat) ∈ (⟨1, [0], [(0, ⟨[], false⟩)]⟩ : CorrState).active ∧
    findChan (dispatchAll ⟨1, [0], [(0, ⟨[], false⟩)]⟩
        [⟨0, ChunkStatus.part, "a"⟩, ⟨0, ChunkStatus.failure, "lost"⟩]).chans 0 =
      some ⟨[⟨0, ChunkStatus.part, "a"⟩, ⟨0, ChunkStatus.failure, "lost"⟩], true⟩ :=
  have h := (executeAsync_contract ⟨false, ⟨0, [], []⟩⟩ "g.V()").2.1
    ⟨false, ⟨1, [0], [(0, ⟨[], false⟩)]⟩⟩ 0 CorrReach.init rfl
  ⟨h.1, (h.2.2.2 [⟨0, ChunkStatus.part, "a"⟩, ⟨0, ChunkStatus.failure, "lost"⟩]
    [⟨0, ChunkStatus.part, "a"⟩, ⟨0, ChunkStatus.failure, "lost"⟩]
    rfl (by decide) (by intro c hc; fin_cases hc; rfl)
    (fun hx => by intro hc; cases hc)).1⟩

/-- Modelled from the spec: the pool's shared mutable state — the
immutable configured maximum, the number of simultaneously open
connections, and the number of submitted requests still waiting (queued
or blocked).  (The pool implementation is not among the provided
sources.) -/
structure PoolState where
  maxConns : Nat
  openConns : Nat
  pending : Nat
deriving DecidableEq, Repr

/-- Modelled from the spec: the pool's transitions under one point of
synchronization — a request may always be submitted (queued/blocked at
capacity, never dropped), a new connection is created only below the
configured maximum, a queued request is served on an existing connection,
and a connection may be closed (idle timeout or stop).  (The pool
implementation is not among the provided sources.) -/
inductive PoolStep : PoolState → PoolState → Prop where
  | submit (s : PoolState) : PoolStep s ⟨s.maxConns, s.openConns, s.pending + 1⟩
  | createConn (s : PoolState) : s.openConns < s.maxConns →
      PoolStep s ⟨s.maxConns, s.openConns + 1, s.pending⟩
  | serve (s : PoolState) : 0 < s.pending →
      PoolStep s ⟨s.maxConns, s.openConns, s.pending - 1⟩
  | closeConn (s : PoolState) : 0 < s.openConns →
      PoolStep s ⟨s.maxConns, s.openConns - 1, s.pending⟩

/-- Pool states reachable from construction with configured maximum `K`
(no connections open, nothing pending). -/
inductive PoolReach (K : Nat) : PoolState → Prop where
  | init : PoolReach K ⟨K, 0, 0⟩
  | step {s s' : PoolState} : PoolReach K s → PoolStep s s' → PoolReach K s'

/-- Claim C1: for a pool constructed with configured maximum `K`, in every
reachable state — under any interleaving of request submissions,
connection creations, servings and closings — the number of
simultaneously open connections is at most `K` (and the configured
maximum never changes). -/
lemma poolStep_bound {s s' : PoolState} (hs : PoolStep s s')
    (hle : s.openConns ≤ s.maxConns) :
    s'.openConns ≤ s'.maxConns ∧ s'.maxConns = s.maxConns := by
  cases hs with
  | submit => exact ⟨hle, rfl⟩
  | createConn hlt => exact ⟨hlt, rfl⟩
  | serve _ => exact ⟨hle, rfl⟩
  | closeConn _ => exact ⟨Nat.le_trans (Nat.sub_le _ _) hle, rfl⟩

theorem pool_open_connections_bounded (K : Nat) (s : PoolState) (h : PoolReach K s) :
    s.openConns ≤ K ∧ s.maxConns = K := by
  induction h with
  | init => exact ⟨Nat.zero_le _, rfl⟩
  | step _ hs ih =>
    obtain ⟨hle, hmax⟩ := ih
    obtain ⟨hle', hmax'⟩ := poolStep_bound hs (hmax ▸ hle)
    exact ⟨hmax ▸ hmax' ▸ hle', hmax'.trans hmax⟩

/-- Witness for `pool_open_connections_bounded`: after one connection
creation on a pool with maximum 2, one connection is open and 1 ≤ 2. -/
theorem pool_open_connections_bounded_witness :
    (⟨2, 1, 0⟩ : PoolState).openConns ≤ 2 :=
  (pool_open_connections_bounded 2 ⟨2, 1, 0⟩
    (PoolReach.step PoolReach.init (PoolStep.createConn ⟨2, 0, 0⟩ (by decide)))).1

/-- Modelled from the spec: one pooled connection as the failure handling
sees it — its identity and the identifiers of the requests outstanding on
it.  (The connector implementation is not among the provided sources.) -/
structure ConnEntry where
  cid : Nat
  reqs : List Nat
deriving DecidableEq, Repr

/-- Modelled from the spec: the pool's connections and the log of
connection-lost failure deliveries made to request sinks, in delivery
order.  (The connector implementation is not among the provided
sources.) -/
structure NetState where
  conns : List ConnEntry
  lost : List Nat
deriving DecidableEq, Repr

/-- Looks up the outstanding requests of connection `cid` (first match). -/
def findConn : List ConnEntry → Nat → Option (List Nat)
  | [], _ => none
  | e :: rest, cid => if e.cid = cid then some e.reqs else findConn rest cid

/-- Modelled from the spec: an unrecoverable I/O error on connection
`cid` — every request outstanding on that connection is failed with a
connection-lost error, and the faulted connection leaves the pool; other
connections are untouched.  (The connector implementation is not among
the provided sources.) -/
def failConn (s : NetState) (cid : Nat) : NetState :=
  match findConn s.conns cid with
  | none => s
  | some reqs => ⟨s.conns.filter (fun e => decide (e.cid ≠ cid)), s.lost ++ reqs⟩

/-- Well-formedness of the pool's connection bookkeeping: each
connection's outstanding list is duplicate-free, a request is outstanding
on at most one connection, connection ids are unique, and no outstanding
request has already received a failure delivery. -/
structure NetWF (s : NetState) : Prop where
  reqsNodup : ∀ e ∈ s.conns, e.reqs.Nodup
  reqsDisjoint : ∀ e ∈ s.conns, ∀ e' ∈ s.conns, e.cid ≠ e'.cid →
    ∀ r ∈ e.reqs, r ∉ e'.reqs
  lostFresh : ∀ e ∈ s.conns, ∀ r ∈ e.reqs, r ∉ s.lost

lemma findConn_some {l : List ConnEntry} {cid : Nat} {reqs : List Nat}
    (h : findConn l cid = some reqs) : ∃ e ∈ l, e.cid = cid ∧ e.reqs = reqs := by
  induction l with
  | nil => cases h
  | cons e rest ih =>
    by_cases hc : e.cid = cid
    · rw [findConn, if_pos hc] at h
      exact ⟨e, List.mem_cons_self _ _, hc, Option.some.inj h⟩
    · rw [findConn, if_neg hc] at h
      obtain ⟨e', he', hc', hr'⟩ := ih h
      exact ⟨e', List.mem_cons_of_mem _ he', hc', hr'⟩

/-- Claim C6: when connection `cid` fails with requests outstanding on
it, each such request receives exactly one connection-lost failure
delivery, while every other connection stays in the pool untouched and
none of its outstanding requests receives any failure delivery. -/
theorem connection_failure_isolation (s : NetState) (cid : Nat) (creqs : List Nat)
    (hwf : NetWF s) (hfind : findConn s.conns cid = some creqs) :
    (∀ r ∈ creqs, ((failConn s cid).lost.count r = 1)) ∧
    (∀ e ∈ s.conns, e.cid ≠ cid →
      e ∈ (failConn s cid).conns ∧
      ∀ r ∈ e.reqs, (failConn s cid).lost.count r = 0) := by
  obtain ⟨e0, he0, hcid0, hreqs0⟩ := findConn_some hfind
  have hfail : failConn s cid = ⟨s.conns.filter (fun e => decide (e.cid ≠ cid)), s.lost ++ creqs⟩ := by
    rw [failConn, hfind]
  rw [hfail]
  constructor
  · intro r hr
    show (s.lost ++ creqs).count r = 1
    rw [List.count_append]
    have h0 : s.lost.count r = 0 :=
      List.count_eq_zero_of_not_mem (hwf.lostFresh e0 he0 r (hreqs0 ▸ hr))
    have h1 : creqs.count r = 1 :=
      List.count_eq_one_of_mem (hreqs0 ▸ hwf.reqsNodup e0 he0) hr
    omega
  · intro e he hene
    constructor
    · exact List.mem_filter.mpr ⟨he, decide_eq_true hene⟩
    · intro r hr
      show (s.lost ++ creqs).count r = 1 - 1
      rw [List.count_append]
      have h0 : s.lost.count r = 0 :=
        List.count_eq_zero_of_not_mem (hwf.lostFresh e he r hr)
      have h1 : creqs.count r = 0 := by
        apply List.count_eq_zero_of_not_mem
        intro hmem
        exact hwf.reqsDisjoint e he e0 he0 (hcid0 ▸ hene) r hr (hreqs0 ▸ hmem)
      omega

/-- Witness for `connection_failure_isolation`: connection 1 with
outstanding requests 10 and 11 fails; each gets exactly one
connection-lost delivery and connection 2's request 20 gets none. -/
theorem connection_failure_isolation_witness :
    (failConn ⟨[⟨1, [10, 11]⟩, ⟨2, [20]⟩], []⟩ 1).lost.count 10 = 1 ∧
    (failConn ⟨[⟨1, [10, 11]⟩, ⟨2, [20]⟩], []⟩ 1).lost.count 20 = 0 :=
  have h := connection_failure_isolation ⟨[⟨1, [10, 11]⟩, ⟨2, [20]⟩], []⟩ 1 [10, 11]
    ⟨by decide, by decide, by decide⟩ rfl
  ⟨h.1 10 (by decide), (h.2 ⟨2, [20]⟩ (by decide) (by decide)).2 20 (by decide)⟩

/-- Modelled from the spec: the connector lifecycle states, including the
`Faulted` state reachable on unrecoverable I/O error.  (The connector
implementation is not among the provided sources.) -/
inductive ConnectorState where
  | disconnected
  | connecting
  | connected
  | draining
  | closed
  | faulted
deriving DecidableEq, Repr

/-- Modelled from the spec: `Close()` — from `Connected` the connector
stops accepting new sends, transitions to `Draining`, waits for in-flight
requests (or the grace period) and then transitions to `Closed`; from a
state that is already `Draining` the ongoing drain completes into
`Closed`; from `Closed` the call changes nothing.  The result is the
final state paired with the sequence of states passed through.  (The
connector implementation is not among the provided sources.) -/
def closeConnector : ConnectorState → ConnectorState × List ConnectorState
  | .connected => (.closed, [.draining, .closed])
  | .draining => (.closed, [.closed])
  | s => (s, [])

/-- Whether the pool counts this connector among its open connections. -/
def connOpen : ConnectorState → Bool
  | .connecting => true
  | .connected => true
  | .draining => true
  | _ => false

/-- Claim C7: `Close()` from `Connected` passes through `Draining` and
ends `Closed`; a second `Close()` — equivalently a `Close()` from an
already `Draining` or `Closed` state — performs no further transition and
leaves the connector's state, and hence the pool's count of open
connections, unchanged and equal to the result of a single `Close()`. -/
theorem connector_close_idempotent :
    closeConnector ConnectorState.connected =
      (ConnectorState.closed, [ConnectorState.draining, ConnectorState.closed]) ∧
    (∀ s : ConnectorState,
      closeConnector (closeConnector s).1 = ((closeConnector s).1, []) ∧
      connOpen (closeConnector (closeConnector s).1).1 = connOpen (closeConnector s).1) ∧
    (closeConnector ConnectorState.draining).1 = ConnectorState.closed ∧
    (closeConnector ConnectorState.closed).1 = ConnectorState.closed ∧
    connOpen ConnectorState.closed = false := by
  refine ⟨rfl, ?_, rfl, rfl, rfl⟩
  intro s
  cases s <;> exact ⟨rfl, rfl⟩
